import Mathlib

/-!
Verification development for the riegeli in-memory buffering substrate:
`SharedBuffer` (riegeli/base/shared_buffer.h) and the `StringWriterBase`
buffering engine (riegeli/bytes/string_writer.cc).

The C++ code is shallowly embedded: heap payloads become cells of an explicit
heap value, pointers become indices, `size_t` values become `Nat` (with the
relevant truncated subtractions mirrored exactly), and each C++ member
function becomes a pure function from the old state to the new state together
with its return value.
-/

namespace Riegeli

/-! ## SharedBuffer (riegeli/base/shared_buffer.h)

A `SharedBuffer::Payload` is a heap allocation holding an atomic reference
count, a usable capacity, and the bytes themselves.  We model the heap as a
list of cells; a freed payload becomes `none`.  A `SharedBuffer` value is its
`payload_` field: `none` for the null state, `some i` for a pointer to cell
`i`.  Atomic operations collapse to their sequential meaning. -/

/-- `SharedBuffer::Payload`: reference count, capacity (usable byte count),
and the bytes at `allocated_begin` (uninitialized bytes modelled as 0). -/
structure Payload where
  refCount : Nat
  capacity : Nat
  data : List Nat
  deriving Repr, DecidableEq

/-- The heap: cell `i` holds `some p` while payload `i` is live, `none` once
it has been freed by `Unref`. -/
structure Heap where
  cells : List (Option Payload)
  deriving Repr, DecidableEq

/-- Look up cell `i` (a dangling index reads as freed). -/
def Heap.get (h : Heap) (i : Nat) : Option Payload :=
  (h.cells.getD i none)

/-- `Payload::Ref()`: `ref_count.fetch_add(1)` on cell `i`. -/
def Heap.refAt (h : Heap) (i : Nat) : Heap :=
  match h.get i with
  | none => h
  | some p => ⟨h.cells.set i (some { p with refCount := p.refCount + 1 })⟩

/-- `Payload::Unref()`: if the count is 1 the payload is deleted, otherwise
the count is decremented (the acquire-load fast path and the
fetch-and-subtract path have this sequential meaning). -/
def Heap.unrefAt (h : Heap) (i : Nat) : Heap :=
  match h.get i with
  | none => h
  | some p =>
    if p.refCount = 1 then ⟨h.cells.set i none⟩
    else ⟨h.cells.set i (some { p with refCount := p.refCount - 1 })⟩

/-- The maximum representable `size_t` value, at which `SaturatingAdd`
saturates. -/
def usizeMax : Nat := 2 ^ 64 - 1

/-- `SaturatingAdd(x, y)` for `size_t`: saturates at `usizeMax` instead of
wrapping. -/
def saturatingAdd (x y : Nat) : Nat := min (x + y) usizeMax

/-- `SharedBuffer::AllocateInternal(min_capacity)`: allocates a fresh payload
with reference count 1.  `SizeReturningNewAligned` may round the allocation
up, so the resulting capacity is `min_capacity + extra` for an
allocator-chosen `extra`; the fresh bytes are uninitialized (modelled as 0).
Returns the new heap and the index of the new cell. -/
def Heap.allocate (h : Heap) (minCapacity extra : Nat) : Heap × Nat :=
  (⟨h.cells ++ [some ⟨1, minCapacity + extra, List.replicate (minCapacity + extra) 0⟩]⟩,
   h.cells.length)

/-- A `SharedBuffer` value is its `payload_` pointer: `none` (null) or a heap
cell index. -/
def SB := Option Nat

instance : DecidableEq SB :=
  inferInstanceAs (DecidableEq (Option Nat))

/-- The pointer `b` is either null or points to a live payload with a
positive reference count (any reachable `SharedBuffer` satisfies this). -/
def sbLive (h : Heap) (b : SB) : Prop :=
  ∀ i, b = some i → ∃ p, h.get i = some p ∧ 1 ≤ p.refCount

instance (h : Heap) (b : SB) : Decidable (sbLive h b) :=
  match b with
  | none => isTrue (fun i hi => by cases hi)
  | some j =>
    match hj : h.get j with
    | none => isFalse (fun hl => by
        obtain ⟨p, hp, _⟩ := hl j rfl
        rw [hj] at hp
        cases hp)
    | some p =>
      if hc : 1 ≤ p.refCount then
        isTrue (fun i hi => by
          cases hi
          exact ⟨p, hj, hc⟩)
      else
        isFalse (fun hl => by
          obtain ⟨q, hq, hqc⟩ := hl j rfl
          rw [hj] at hq
          cases hq
          exact hc hqc)

/-- `SharedBuffer::has_unique_owner()`: true for null, otherwise whether the
reference count equals 1. -/
def hasUniqueOwner (h : Heap) (b : SB) : Bool :=
  match b with
  | none => true
  | some i =>
    match h.get i with
    | none => false
    | some p => p.refCount = 1

/-- `SharedBuffer::capacity()`: 0 for null, otherwise the payload's
capacity. -/
def sbCapacity (h : Heap) (b : SB) : Nat :=
  match b with
  | none => 0
  | some i =>
    match h.get i with
    | none => 0
    | some p => p.capacity

/-- `SharedBuffer::const_data()`: null pointer for the null state, otherwise
the payload's bytes (a pointer is identified with what it points at). -/
def sbConstData (h : Heap) (b : SB) : Option (List Nat) :=
  match b with
  | none => none
  | some i =>
    match h.get i with
    | none => none
    | some p => some p.data

/-- `SharedBuffer::Reset(min_capacity)`: if a payload is held, reuse it when
uniquely owned with sufficient capacity; otherwise raise `min_capacity` to
`max(min_capacity, SaturatingAdd(capacity, capacity))`, drop the reference,
and allocate afresh (`extra` is the allocator's round-up choice). -/
def sbReset (h : Heap) (b : SB) (minCapacity extra : Nat) : Heap × SB :=
  match b with
  | some i =>
    match h.get i with
    | some p =>
      if hasUniqueOwner h (some i) ∧ p.capacity ≥ minCapacity then (h, some i)
      else
        let minCapacity' := max minCapacity (saturatingAdd p.capacity p.capacity)
        let h' := h.unrefAt i
        let (h'', j) := h'.allocate minCapacity' extra
        (h'', some j)
    | none => (h, some i)
  | none =>
    let (h', j) := h.allocate minCapacity extra
    (h', some j)

/-! Self-assignment (claim C9).  `operator=` acts on a named object whose
`payload_` field may alias the source's.  We model the collection of
`SharedBuffer` objects as a list of `payload_` fields and assignment as an
operation on two indices into that list, so that `dst = src` aliasing is
represented exactly. -/

/-- A heap together with the `payload_` fields of the live `SharedBuffer`
objects. -/
structure World where
  heap : Heap
  objs : List SB
  deriving DecidableEq

/-- `SharedBuffer::operator=(const SharedBuffer& that)`:
`payload = that.payload_; if (payload) payload->Ref();
if (payload_) payload_->Unref(); payload_ = payload;`. -/
def copyAssign (w : World) (dst src : Nat) : World :=
  let payload := w.objs.getD src none
  let h1 := match payload with
    | some i => w.heap.refAt i
    | none => w.heap
  let cur := w.objs.getD dst none
  let h2 := match cur with
    | some j => h1.unrefAt j
    | none => h1
  ⟨h2, w.objs.set dst payload⟩

/-- `SharedBuffer::operator=(SharedBuffer&& that)`:
`payload = std::exchange(that.payload_, nullptr);
if (payload_) payload_->Unref(); payload_ = payload;` — the exchange happens
before `payload_` is read, which is what makes self-assignment safe. -/
def moveAssign (w : World) (dst src : Nat) : World :=
  let payload := w.objs.getD src none
  let objs1 := w.objs.set src none
  let cur := objs1.getD dst none
  let h1 := match cur with
    | some j => w.heap.unrefAt j
    | none => w.heap
  ⟨h1, objs1.set dst payload⟩

/-! ## StringWriterBase (riegeli/bytes/string_writer.cc)

The writer's window `[start, cursor, limit)` aliases either the destination
`std::string` (`start() == &dest[0]`, "direct" mode) or the writable tail of
the secondary `Chain`, or is null after `set_buffer()`.  We represent the
alias relation by a tag and keep `start_to_limit` / `start_to_cursor` as
numbers.  Byte containers are `List Nat`; a `Chain` and a `Cord` are
observably their byte sequences, so the four `WriteSlow` overloads (Chain,
Chain&&, Cord, Cord&&) collapse to one function of the source bytes.  The
collaborator choices the code does not determine — the span size returned by
`Chain::AppendBuffer` and the capacity a `std::string` reallocation yields —
enter as explicit parameters / minimal guarantees. -/

/-- Which storage the window `[start, limit)` aliases: `direct` when
`start() == &dest[0]`, `secondary` when it is the reserved tail of
`secondary_buffer_`, `detached` after `set_buffer()` (null window). -/
inductive WMode
  | direct
  | secondary
  | detached
  deriving Repr, DecidableEq

/-- The observable state of a `StringWriterBase`: health flag, the
destination string (contents `dest`, with `destCap` its capacity and
`maxSize` its `max_size()`), the physical contents of `secondary_buffer_`
(committed bytes followed by the reserved, not yet filled tail), `start_pos`,
and the window (`mode`, `stl = start_to_limit`, `stc = start_to_cursor`). -/
structure WS where
  healthy : Bool
  maxSize : Nat
  destCap : Nat
  dest : List Nat
  secondary : List Nat
  startPos : Nat
  mode : WMode
  stl : Nat
  stc : Nat
  deriving Repr, DecidableEq

namespace WS

/-- `Writer::pos()` = `start_pos() + start_to_cursor()`. -/
def pos (s : WS) : Nat := s.startPos + s.stc

/-- `Writer::limit_pos()` = `start_pos() + start_to_limit()`. -/
def limitPos (s : WS) : Nat := s.startPos + s.stl

/-- `Writer::available()` = `limit - cursor`. -/
def avail (s : WS) : Nat := s.stl - s.stc

end WS

/-- `StringWriterBase::SyncDestBuffer(dest)`:
`dest.erase(start_to_cursor()); set_buffer(&dest[0], dest.size(),
dest.size());` — trims the unused window slack off the destination and
re-establishes a fully-consumed direct window. -/
def syncDestBuffer (s : WS) : WS :=
  let dest := s.dest.take s.stc
  { s with dest := dest, mode := .direct, stl := dest.length, stc := dest.length }

/-- `StringWriterBase::SyncSecondaryBuffer()`:
`set_start_pos(pos()); secondary_buffer_.RemoveSuffix(available());
set_buffer();` — drops the unused reserved tail and detaches the window. -/
def syncSecondaryBuffer (s : WS) : WS :=
  { s with startPos := s.startPos + s.stc,
           secondary := s.secondary.take (s.secondary.length - (s.stl - s.stc)),
           mode := .detached, stl := 0, stc := 0 }

/-- `StringWriterBase::MakeSecondaryBuffer(min_length, recommended_length)`:
`Chain::AppendBuffer` appends a writable span to the chain and the window is
set over it.  The span's size is the collaborator's choice (at least
`min_length`), passed in as `tailSize`; its bytes are uninitialized
(modelled as 0). -/
def makeSecondaryBuffer (s : WS) (tailSize : Nat) : WS :=
  { s with secondary := s.secondary ++ List.replicate tailSize 0,
           mode := .secondary, stl := tailSize, stc := 0 }

/-- Modelled from the spec: `StringWriterBase::MakeDestBuffer(dest)` lives in
the missing header string_writer.h.  Per the spec it re-establishes a direct
window over the destination's own spare capacity: the string is resized to
its full capacity (new bytes value-initialized to 0) and the window is set
over all of it with the cursor at the previous size. -/
def makeDestBuffer (s : WS) : WS :=
  let k := s.dest.length
  let dest := s.dest ++ List.replicate (s.destCap - k) 0
  { s with dest := dest, mode := .direct, stl := s.destCap, stc := k }

/-- Modelled from the spec: `Writer::FailOverflow()` (missing base class)
reports the overflow condition, making the writer unhealthy and returning
false; the destination is left untouched. -/
def failOverflow (s : WS) : WS × Bool :=
  ({ s with healthy := false }, false)

/-- `StringWriterBase::PushSlow(min_length, recommended_length)`.  `tailSize`
is the span size `Chain::AppendBuffer` grants when the secondary path is
taken (the collaborator guarantees `tailSize ≥ min_length`). -/
def pushSlow (s : WS) (minLength recommendedLength tailSize : Nat) : WS × Bool :=
  if !s.healthy then (s, false)
  else if minLength > s.maxSize - s.pos then failOverflow s
  else if s.mode = .direct then
    let s1 := syncDestBuffer s
    if minLength ≤ s1.destCap - s1.dest.length then (makeDestBuffer s1, true)
    else
      let s2 := { s1 with startPos := s1.dest.length }
      (makeSecondaryBuffer s2 tailSize, true)
  else
    let s1 := syncSecondaryBuffer s
    (makeSecondaryBuffer s1 tailSize, true)

/-- `StringWriterBase::WriteSlow` for a `Chain` / `Cord` source (all four
overloads append the same bytes to the same places): overflow check, direct
fast path appending into the destination's spare capacity, otherwise append
to `secondary_buffer_`, advance `start_pos`, and reserve a fresh tail of
collaborator-chosen size `tailSize`. -/
def writeSlow (s : WS) (src : List Nat) (tailSize : Nat) : WS × Bool :=
  if !s.healthy then (s, false)
  else if src.length > s.maxSize - s.pos then failOverflow s
  else if s.mode = .direct then
    let s1 := syncDestBuffer s
    if src.length ≤ s1.destCap - s1.dest.length then
      (makeDestBuffer { s1 with dest := s1.dest ++ src }, true)
    else
      let s2 := { s1 with startPos := s1.dest.length }
      let s3 := { s2 with startPos := s2.startPos + src.length,
                          secondary := s2.secondary ++ src }
      (makeSecondaryBuffer s3 tailSize, true)
  else
    let s1 := syncSecondaryBuffer s
    let s3 := { s1 with startPos := s1.startPos + src.length,
                        secondary := s1.secondary ++ src }
    (makeSecondaryBuffer s3 tailSize, true)

/-- `StringWriterBase::WriteZerosSlow(length)`: identical structure to
`WriteSlow` with `length` zero bytes (`dest.append(length, 0)` on the fast
path, `ChainOfZeros(length)` on the secondary path). -/
def writeZerosSlow (s : WS) (length tailSize : Nat) : WS × Bool :=
  if !s.healthy then (s, false)
  else if length > s.maxSize - s.pos then failOverflow s
  else if s.mode = .direct then
    let s1 := syncDestBuffer s
    if length ≤ s1.destCap - s1.dest.length then
      (makeDestBuffer { s1 with dest := s1.dest ++ List.replicate length 0 }, true)
    else
      let s2 := { s1 with startPos := s1.dest.length }
      let s3 := { s2 with startPos := s2.startPos + length,
                          secondary := s2.secondary ++ List.replicate length 0 }
      (makeSecondaryBuffer s3 tailSize, true)
  else
    let s1 := syncSecondaryBuffer s
    let s3 := { s1 with startPos := s1.startPos + length,
                        secondary := s1.secondary ++ List.replicate length 0 }
    (makeSecondaryBuffer s3 tailSize, true)

/-- `StringWriterBase::FlushImpl(flush_type)`: direct mode only trims slack;
secondary mode trims the unused tail, appends the whole chain to the
destination, clears it, resets `start_pos` to 0 and re-establishes a direct
window over the complete destination.  A `std::string` reallocation yields an
unspecified capacity ≥ the new size; we model the minimal guarantee. -/
def flushImpl (s : WS) : WS × Bool :=
  if !s.healthy then (s, false)
  else if s.mode = .direct then (syncDestBuffer s, true)
  else
    let s1 := syncSecondaryBuffer s
    let dest := s1.dest ++ s1.secondary
    ({ s1 with dest := dest, destCap := max s1.destCap dest.length,
               secondary := [], startPos := 0,
               mode := .direct, stl := dest.length, stc := dest.length }, true)

/-- `StringWriterBase::SizeImpl()`: `nullopt` when unhealthy, else `pos()`;
the method reads but never writes the state (returned unchanged). -/
def sizeImpl (s : WS) : WS × Option Nat :=
  if !s.healthy then (s, none) else (s, some s.pos)

/-- `StringWriterBase::TruncateImpl(new_size)`. -/
def truncateImpl (s : WS) (newSize : Nat) : WS × Bool :=
  if !s.healthy then (s, false)
  else if newSize > s.pos then (s, false)
  else if s.mode = .direct then
    ({ s with stc := newSize }, true)
  else if newSize < s.dest.length then
    ({ s with secondary := [], startPos := 0,
              mode := .direct, stl := s.dest.length, stc := newSize }, true)
  else
    ({ s with secondary := s.secondary.take
                (s.secondary.length - (s.dest.length + s.secondary.length - newSize)),
              startPos := newSize, mode := .detached, stl := 0, stc := 0 }, true)

/-- Overwrite `l` at offset `i` with `bytes` (in-bounds writes through a
window pointer). -/
def listWrite (l : List Nat) (i : Nat) (bytes : List Nat) : List Nat :=
  l.take i ++ bytes ++ l.drop (i + bytes.length)

/-- Modelled from the spec: the base `Writer`'s fast path fills the granted
window by copying bytes at the cursor and advancing it (`memcpy` to
`cursor()` plus `move_cursor`); valid only when `bytes.length ≤ available()`.
In direct mode the bytes land in the destination, in secondary mode in the
reserved tail of the chain. -/
def fill (s : WS) (bytes : List Nat) : WS :=
  match s.mode with
  | .direct =>
      { s with dest := listWrite s.dest s.stc bytes, stc := s.stc + bytes.length }
  | .secondary =>
      { s with secondary :=
                 listWrite s.secondary (s.secondary.length - s.stl + s.stc) bytes,
               stc := s.stc + bytes.length }
  | .detached => s

/-- Modelled from the spec: a `StringWriter` freshly opened on an empty
destination string (capacity `cap`, `max_size()` `maxSize`): healthy, empty
destination and overflow, position 0, direct window of size 0. -/
def initWriter (maxSize cap : Nat) : WS :=
  { healthy := true, maxSize := maxSize, destCap := cap, dest := [],
    secondary := [], startPos := 0, mode := .direct, stl := 0, stc := 0 }

/-! ### Well-formedness, the position invariant, and logical content -/

/-- Well-formedness of a writer state; `initWriter` satisfies it and every
operation preserves it, so it characterizes the reachable states.  In direct
mode the window spans the whole destination with `start_pos` 0 and no
overflow; in secondary mode the window is the last `stl` bytes of the chain;
with a detached window `start_pos` is the total materialized size. -/
def goodState (s : WS) : Prop :=
  s.stc ≤ s.stl ∧ s.dest.length ≤ s.destCap ∧
  match s.mode with
  | .direct => s.startPos = 0 ∧ s.stl = s.dest.length ∧ s.secondary = []
  | .secondary => s.stl ≤ s.secondary.length ∧
      s.startPos = s.dest.length + (s.secondary.length - s.stl)
  | .detached => s.stl = 0 ∧ s.startPos = s.dest.length + s.secondary.length

instance (s : WS) : Decidable (goodState s) := by
  unfold goodState
  cases s.mode <;> exact inferInstance

/-- The assertion checked on every slow path:
`limit_pos() == dest.size() + secondary_buffer_.size()`. -/
def posInvariant (s : WS) : Prop :=
  s.limitPos = s.dest.length + s.secondary.length

instance (s : WS) : Decidable (posInvariant s) := by
  unfold posInvariant; exact inferInstance

/-- The logical stream content: the bytes at positions `[0, pos())`.  In
direct mode this is the written prefix of the destination; otherwise the
destination followed by the committed part of the chain (the chain minus the
unused `available()` tail). -/
def content (s : WS) : List Nat :=
  match s.mode with
  | .direct => s.dest.take s.stc
  | _ => s.dest ++ s.secondary.take (s.secondary.length - (s.stl - s.stc))

/-! ### Operation sequences -/

/-- An append-style operation together with the collaborator's choices:
`pushFill` is `PushSlow` followed by filling `bytes` into the granted window,
`write` is `WriteSlow` of a Chain or Cord holding `src`, `zeros` is
`WriteZerosSlow`. -/
inductive AOp
  | pushFill (minLength recommendedLength tailSize : Nat) (bytes : List Nat)
  | write (src : List Nat) (tailSize : Nat)
  | zeros (length tailSize : Nat)
  deriving Repr, DecidableEq

/-- Run one append operation (ignoring its success flag). -/
def astep (s : WS) : AOp → WS
  | .pushFill m r t bytes => fill (pushSlow s m r t).1 bytes
  | .write src t => (writeSlow s src t).1
  | .zeros n t => (writeZerosSlow s n t).1

/-- The operation succeeded and its collaborator choices were legal: a push
grants at least `min_length` and the subsequent fill stays inside the granted
window. -/
def aok (s : WS) : AOp → Bool
  | .pushFill m r t bytes =>
      (pushSlow s m r t).2 && decide (m ≤ t) &&
        decide (bytes.length ≤ (pushSlow s m r t).1.avail)
  | .write src t => (writeSlow s src t).2
  | .zeros n t => (writeZerosSlow s n t).2

/-- The bytes an append operation adds to the logical stream. -/
def aBytes : AOp → List Nat
  | .pushFill _ _ _ bytes => bytes
  | .write src _ => src
  | .zeros n _ => List.replicate n 0

/-- Run a sequence of append operations. -/
def runOps (s : WS) : List AOp → WS
  | [] => s
  | op :: ops => runOps (astep s op) ops

/-- Every operation of the sequence succeeds (run left to right). -/
def opsOk (s : WS) : List AOp → Bool
  | [] => true
  | op :: ops => aok s op && opsOk (astep s op) ops

/-- The byte sequence written by a sequence of append operations. -/
def opsBytes : List AOp → List Nat
  | [] => []
  | op :: ops => aBytes op ++ opsBytes ops

/-- A public operation of the writer (claims about all operations quantify
over this type). -/
inductive POp
  | push (minLength recommendedLength tailSize : Nat)
  | write (src : List Nat) (tailSize : Nat)
  | zeros (length tailSize : Nat)
  | flush
  | truncate (newSize : Nat)
  deriving Repr, DecidableEq

/-- Dispatch a public operation. -/
def pstep (s : WS) : POp → WS × Bool
  | .push m r t => pushSlow s m r t
  | .write src t => writeSlow s src t
  | .zeros n t => writeZerosSlow s n t
  | .flush => flushImpl s
  | .truncate n => truncateImpl s n

/-- The request size `n` of an append-style operation (`none` for the
lifecycle operations). -/
def reqSize : POp → Option Nat
  | .push m _ _ => some m
  | .write src _ => some src.length
  | .zeros n _ => some n
  | .flush => none
  | .truncate _ => none

/-! ## Helper lemmas: heap -/

theorem set_getD_self {α : Type} (l : List α) (i : Nat) (d : α) :
    l.set i (l.getD i d) = l := by
  rcases Nat.lt_or_ge i l.length with h | h
  · rw [List.getD_eq_getElem l d h]
    apply List.ext_getElem
    · simp
    · intro n h1 h2
      rw [List.getElem_set]
      split <;> simp_all
  · exact List.set_eq_of_length_le h

theorem getD_append_left {α : Type} (l l₂ : List α) (i : Nat) (d : α)
    (h : i < l.length) : (l ++ l₂).getD i d = l.getD i d := by
  simp [List.getD, List.getElem?_append_left h]

theorem getD_snoc_length {α : Type} (l : List α) (a d : α) :
    (l ++ [a]).getD l.length d = a := by
  simp [List.getD]

theorem getD_set_self {α : Type} (l : List α) (i : Nat) (a d : α)
    (h : i < l.length) : (l.set i a).getD i d = a := by
  simp [List.getD, List.getElem?_set_self, h]

theorem Heap.get_lt_length {h : Heap} {i : Nat} {p : Payload}
    (hg : h.get i = some p) : i < h.cells.length := by
  by_contra hge
  rw [Heap.get, List.getD_eq_default _ _ (Nat.le_of_not_lt hge)] at hg
  cases hg

theorem Heap.length_unrefAt (h : Heap) (i : Nat) :
    (h.unrefAt i).cells.length = h.cells.length := by
  rw [Heap.unrefAt]
  rcases hg : h.get i with _ | p
  · rfl
  · dsimp only
    split <;> simp

/-- Unref undoes Ref on a live cell. -/
theorem Heap.unrefAt_refAt {h : Heap} {i : Nat} {p : Payload}
    (hg : h.get i = some p) (hc : 1 ≤ p.refCount) :
    (h.refAt i).unrefAt i = h := by
  have hi : i < h.cells.length := Heap.get_lt_length hg
  rw [Heap.refAt, hg]
  dsimp only
  rw [Heap.unrefAt]
  have hget : (Heap.mk
      (h.cells.set i (some { p with refCount := p.refCount + 1 }))).get i
      = some { p with refCount := p.refCount + 1 } := by
    rw [Heap.get]
    exact getD_set_self _ _ _ _ hi
  rw [hget]
  dsimp only
  rw [if_neg (by show ¬(p.refCount + 1 = 1); omega)]
  have : p.refCount + 1 - 1 = p.refCount := by omega
  rw [List.set_set, this]
  have hp : ({ p with refCount := p.refCount } : Payload) = p := rfl
  rw [hp]
  have := set_getD_self h.cells i (none : Option Payload)
  rw [Heap.get] at hg
  rw [hg] at this
  rw [this]

/-! ## Claim theorems: SharedBuffer -/

/-- C6: `has_unique_owner()` is true iff the reference count is 1 or the
buffer is null; a null `SharedBuffer` reports capacity 0, a null data
pointer, and counts as uniquely owned. -/
theorem c6_unique_owner_and_null (h : Heap) (b : SB) (hl : sbLive h b) :
    (hasUniqueOwner h b = true ↔
      (b = none ∨ ∃ i p, b = some i ∧ h.get i = some p ∧ p.refCount = 1)) ∧
    (b = none →
      sbCapacity h b = 0 ∧ sbConstData h b = none ∧ hasUniqueOwner h b = true) := by
  constructor
  · rcases b with _ | i
    · simp [hasUniqueOwner]
    · obtain ⟨p, hp, _⟩ := hl i rfl
      simp only [hasUniqueOwner, hp, decide_eq_true_eq]
      constructor
      · intro h1
        exact Or.inr ⟨i, p, rfl, hp, h1⟩
      · rintro (hn | ⟨j, q, hj, hq, hq1⟩)
        · cases hn
        · cases hj
          rw [hp] at hq
          cases hq
          exact hq1
  · rintro rfl
    exact ⟨rfl, rfl, rfl⟩

/-- Witness for C6 at a concrete one-cell heap and at the null buffer. -/
theorem c6_unique_owner_and_null_witness :
    (hasUniqueOwner ⟨[some ⟨1, 4, [7, 7, 7, 7]⟩]⟩ (some 0) = true ↔
      ((some 0 : SB) = none ∨ ∃ i p, (some 0 : SB) = some i ∧
        Heap.get ⟨[some ⟨1, 4, [7, 7, 7, 7]⟩]⟩ i = some p ∧ p.refCount = 1)) ∧
    ((some 0 : SB) = none →
      sbCapacity ⟨[some ⟨1, 4, [7, 7, 7, 7]⟩]⟩ (some 0) = 0 ∧
      sbConstData ⟨[some ⟨1, 4, [7, 7, 7, 7]⟩]⟩ (some 0) = none ∧
      hasUniqueOwner ⟨[some ⟨1, 4, [7, 7, 7, 7]⟩]⟩ (some 0) = true) :=
  c6_unique_owner_and_null ⟨[some ⟨1, 4, [7, 7, 7, 7]⟩]⟩ (some 0) (by decide)

/-- C5: `Reset(min_capacity)` is a no-op on a uniquely owned payload of
sufficient capacity; otherwise it drops the current reference and allocates a
fresh payload (reference count 1, at a fresh cell) whose capacity is at least
`max(min_capacity, SaturatingAdd(old_capacity, old_capacity))`, the doubling
saturating at `usizeMax`. -/
theorem c5_reset_growth_policy :
    (∀ (h : Heap) (b : SB) (i minCapacity extra : Nat), b = some i →
       sbLive h b → hasUniqueOwner h b = true → minCapacity ≤ sbCapacity h b →
       sbReset h b minCapacity extra = (h, b)) ∧
    (∀ (h : Heap) (b : SB) (minCapacity extra : Nat), sbLive h b →
       (∀ i, b = some i →
         ¬(hasUniqueOwner h b = true ∧ minCapacity ≤ sbCapacity h b)) →
       (sbReset h b minCapacity extra).2 = some h.cells.length ∧
       (∀ i, b = some i → i ≠ h.cells.length ∧
         (sbReset h b minCapacity extra).1.get i = (h.unrefAt i).get i) ∧
       ∃ p, (sbReset h b minCapacity extra).1.get h.cells.length = some p ∧
         p.refCount = 1 ∧
         max minCapacity (saturatingAdd (sbCapacity h b) (sbCapacity h b))
           ≤ p.capacity) := by
  constructor
  · rintro h b i minCapacity extra rfl hl hu hc
    obtain ⟨p, hp, _⟩ := hl i rfl
    rw [sbReset, hp]
    dsimp only
    rw [if_pos]
    refine ⟨hu, ?_⟩
    rw [sbCapacity, hp] at hc
    exact hc
  · intro h b minCapacity extra hl hno
    rcases b with _ | i
    · refine ⟨rfl, by rintro i ⟨⟩, ⟨⟨1, minCapacity + extra,
        List.replicate (minCapacity + extra) 0⟩, ?_, rfl, ?_⟩⟩
      · exact getD_snoc_length _ _ _
      · simp [sbCapacity, saturatingAdd, usizeMax]
    · obtain ⟨p, hp, _⟩ := hl i rfl
      have hi : i < h.cells.length := Heap.get_lt_length hp
      have hcond : ¬(hasUniqueOwner h (some i) = true ∧
          p.capacity ≥ minCapacity) := by
        intro hand
        refine hno i rfl ⟨hand.1, ?_⟩
        rw [sbCapacity, hp]
        exact hand.2
      rw [sbReset, hp]
      dsimp only
      rw [if_neg hcond]
      have hlen : (h.unrefAt i).cells.length = h.cells.length :=
        Heap.length_unrefAt h i
      refine ⟨?_, ?_, ?_⟩
      · simp [Heap.allocate, hlen]
      · rintro j ⟨rfl⟩
        refine ⟨by omega, ?_⟩
        simp only [Heap.allocate]
        rw [Heap.get, Heap.get]
        exact getD_append_left _ _ _ _ (by omega)
      · refine ⟨⟨1, max minCapacity (saturatingAdd p.capacity p.capacity) + extra,
          List.replicate
            (max minCapacity (saturatingAdd p.capacity p.capacity) + extra) 0⟩,
          ?_, rfl, ?_⟩
        · simp only [Heap.allocate]
          rw [Heap.get, ← hlen]
          exact getD_snoc_length _ _ _
        · simp only [sbCapacity, hp]
          omega

/-- Witness for C5: the no-op branch on a uniquely owned 4-byte payload with
`min_capacity = 3`, and the growth branch on a shared payload. -/
theorem c5_reset_growth_policy_witness :
    sbReset ⟨[some ⟨1, 4, [7, 7, 7, 7]⟩]⟩ (some 0) 3 0
      = (⟨[some ⟨1, 4, [7, 7, 7, 7]⟩]⟩, some 0) ∧
    ((sbReset ⟨[some ⟨2, 4, [7, 7, 7, 7]⟩]⟩ (some 0) 3 0).2 = some 1 ∧
     (∀ i, (some 0 : SB) = some i → i ≠ 1 ∧
       (sbReset ⟨[some ⟨2, 4, [7, 7, 7, 7]⟩]⟩ (some 0) 3 0).1.get i
         = (Heap.unrefAt ⟨[some ⟨2, 4, [7, 7, 7, 7]⟩]⟩ i).get i) ∧
     ∃ p, (sbReset ⟨[some ⟨2, 4, [7, 7, 7, 7]⟩]⟩ (some 0) 3 0).1.get 1 = some p ∧
       p.refCount = 1 ∧
       max 3 (saturatingAdd (sbCapacity ⟨[some ⟨2, 4, [7, 7, 7, 7]⟩]⟩ (some 0))
         (sbCapacity ⟨[some ⟨2, 4, [7, 7, 7, 7]⟩]⟩ (some 0))) ≤ p.capacity) :=
  ⟨c5_reset_growth_policy.1 ⟨[some ⟨1, 4, [7, 7, 7, 7]⟩]⟩ (some 0) 0 3 0 rfl
     (by decide) (by decide) (by decide),
   c5_reset_growth_policy.2 ⟨[some ⟨2, 4, [7, 7, 7, 7]⟩]⟩ (some 0) 3 0
     (by decide) (by decide)⟩

/-- C9: copy self-assignment and move self-assignment of a `SharedBuffer`
leave the object and the heap (hence reference count, contents, capacity)
exactly as they were. -/
theorem c9_self_assignment (w : World) (i : Nat)
    (hl : sbLive w.heap (w.objs.getD i none)) :
    copyAssign w i i = w ∧ moveAssign w i i = w := by
  constructor
  · rcases hb : w.objs.getD i none with _ | j
    · have hset : w.objs.set i none = w.objs := by
        rw [← hb]
        exact set_getD_self _ _ _
      simp only [copyAssign, hb, hset]
    · obtain ⟨p, hp, hp1⟩ := hl j hb
      have hset : w.objs.set i (some j) = w.objs := by
        rw [← hb]
        exact set_getD_self _ _ _
      simp only [copyAssign, hb, Heap.unrefAt_refAt hp hp1, hset]
  · have hcur : (w.objs.set i none).getD i none = none := by
      rcases Nat.lt_or_ge i w.objs.length with h | h
      · exact getD_set_self _ _ _ _ h
      · rw [List.set_eq_of_length_le h]
        exact List.getD_eq_default _ _ h
    have hset : (w.objs.set i none).set i (w.objs.getD i none) = w.objs := by
      rw [List.set_set]
      exact set_getD_self _ _ _
    simp only [moveAssign, hcur, hset]

/-- Witness for C9 at a concrete world: one payload, two handles sharing
it. -/
theorem c9_self_assignment_witness :
    copyAssign ⟨⟨[some ⟨2, 3, [1, 2, 3]⟩]⟩, [some 0, some 0]⟩ 1 1
      = ⟨⟨[some ⟨2, 3, [1, 2, 3]⟩]⟩, [some 0, some 0]⟩ ∧
    moveAssign ⟨⟨[some ⟨2, 3, [1, 2, 3]⟩]⟩, [some 0, some 0]⟩ 1 1
      = ⟨⟨[some ⟨2, 3, [1, 2, 3]⟩]⟩, [some 0, some 0]⟩ :=
  c9_self_assignment ⟨⟨[some ⟨2, 3, [1, 2, 3]⟩]⟩, [some 0, some 0]⟩ 1 (by decide)

/-! ## Helper lemmas: writer -/

theorem goodState_posInvariant {s : WS} (hg : goodState s) : posInvariant s := by
  rcases hg with ⟨h1, h2, h3⟩
  rw [posInvariant, WS.limitPos]
  cases hm : s.mode <;> rw [hm] at h3
  · rcases h3 with ⟨ha, hb, hc⟩
    rw [ha, hb, hc]
    simp
  · omega
  · omega

theorem listWrite_length (l : List Nat) (i : Nat) (b : List Nat)
    (h : i + b.length ≤ l.length) : (listWrite l i b).length = l.length := by
  rw [listWrite]
  simp
  omega

theorem listWrite_take (l : List Nat) (i : Nat) (b : List Nat)
    (h : i ≤ l.length) :
    (listWrite l i b).take (i + b.length) = l.take i ++ b := by
  rw [listWrite, List.append_assoc]
  have h4 : (l.take i).length = i := by
    simp
    omega
  have key : (l.take i ++ (b ++ l.drop (i + b.length))).take
        ((l.take i).length + b.length)
      = l.take i ++ (b ++ l.drop (i + b.length)).take b.length :=
    List.take_append b.length
  rw [h4] at key
  rw [key, List.take_left]

theorem fill_spec {s : WS} (bytes : List Nat) (hg : goodState s)
    (hb : s.stc + bytes.length ≤ s.stl) :
    goodState (fill s bytes) ∧ (fill s bytes).healthy = s.healthy ∧
      content (fill s bytes) = content s ++ bytes ∧
      (fill s bytes).pos = s.pos + bytes.length := by
  obtain ⟨hy, mx, cap, dest, sec, sp, mode, stl, stc⟩ := s
  obtain ⟨h1, h2, h3⟩ := hg
  dsimp only at h1 h2 h3 hb
  cases mode
  · obtain ⟨ha, hstl, hsec⟩ := h3
    have hlen : stc + bytes.length ≤ dest.length := by omega
    simp only [fill, goodState, content, WS.pos]
    rw [listWrite_length dest stc bytes hlen,
        listWrite_take dest stc bytes (by omega)]
    refine ⟨⟨by omega, by omega, ha, by omega, hsec⟩, trivial, rfl, by omega⟩
  · obtain ⟨hstl, hsp⟩ := h3
    have hlen : (sec.length - stl + stc) + bytes.length ≤ sec.length := by omega
    simp only [fill, goodState, content, WS.pos]
    rw [listWrite_length sec _ bytes hlen]
    have harith : sec.length - (stl - (stc + bytes.length))
        = (sec.length - stl + stc) + bytes.length := by omega
    rw [harith, listWrite_take sec _ bytes (by omega)]
    have harith2 : sec.length - (stl - stc) = sec.length - stl + stc := by omega
    rw [harith2]
    refine ⟨⟨by omega, h2, by omega, by omega⟩, trivial, by
      rw [List.append_assoc], by omega⟩
  · obtain ⟨hstl, hsp⟩ := h3
    have hnil : bytes = [] := by
      have : bytes.length = 0 := by omega
      exact List.eq_nil_of_length_eq_zero this
    subst hnil
    simp only [fill, goodState, content, WS.pos]
    exact ⟨⟨h1, h2, hstl, hsp⟩, trivial, by simp, by omega⟩

/-- The committed prefix of a chain after reserving a `t`-byte tail. -/
theorem take_sub_replicate (l : List Nat) (t : Nat) :
    (l ++ List.replicate t 0).take ((l ++ List.replicate t 0).length - t) = l := by
  have h : (l ++ List.replicate t 0).length - t = l.length := by simp
  rw [h, List.take_left]

/-- `MakeSecondaryBuffer` on a state whose position bookkeeping is synced
(`start_pos = dest.size + secondary.size`): the result is a well-formed
secondary-mode state, health, destination and logical content are unchanged,
and the new window has `t` bytes available. -/
theorem makeSecondary_spec (s1 : WS) (t : Nat)
    (hsp : s1.startPos = s1.dest.length + s1.secondary.length)
    (hcap : s1.dest.length ≤ s1.destCap) :
    goodState (makeSecondaryBuffer s1 t) ∧
    (makeSecondaryBuffer s1 t).healthy = s1.healthy ∧
    (makeSecondaryBuffer s1 t).dest = s1.dest ∧
    content (makeSecondaryBuffer s1 t) = s1.dest ++ s1.secondary ∧
    (makeSecondaryBuffer s1 t).avail = t := by
  simp only [makeSecondaryBuffer, goodState, content, WS.avail]
  refine ⟨⟨by omega, hcap, by simp, by simp; omega⟩, trivial, trivial, ?_, by omega⟩
  rw [Nat.sub_zero, take_sub_replicate]

/-- `PushSlow` preserves well-formedness; on success the writer stays healthy
and the logical content is unchanged. -/
theorem pushSlow_spec {s : WS} (m r t : Nat) (hg : goodState s) :
    goodState (pushSlow s m r t).1 ∧
    ((pushSlow s m r t).2 = true → (pushSlow s m r t).1.healthy = true ∧
      content (pushSlow s m r t).1 = content s) := by
  obtain ⟨hy, mx, cap, dest, sec, sp, mode, stl, stc⟩ := s
  obtain ⟨h1, h2, h3⟩ := hg
  dsimp only at h1 h2 h3
  cases hy
  · simp only [pushSlow, Bool.not_false, if_true]
    exact ⟨⟨h1, h2, h3⟩, by simp⟩
  · simp only [pushSlow, Bool.not_true, Bool.false_eq_true, if_false, WS.pos]
    by_cases hov : m > mx - (sp + stc)
    · rw [if_pos hov]
      exact ⟨⟨h1, h2, h3⟩, by simp [failOverflow]⟩
    · rw [if_neg hov]
      cases mode
      · obtain ⟨ha, hstl, hsec⟩ := h3
        subst hsec
        rw [if_pos rfl]
        simp only [syncDestBuffer]
        by_cases hfit : m ≤ cap - (dest.take stc).length
        · rw [if_pos hfit]
          simp only [makeDestBuffer, goodState, content]
          refine ⟨⟨by simp; omega, by simp; omega, ha, by simp; omega, trivial⟩,
            fun _ => ⟨trivial, List.take_left _ _⟩⟩
        · rw [if_neg hfit]
          obtain ⟨g1, g2, g3, g4, g5⟩ := makeSecondary_spec
            ⟨true, mx, cap, dest.take stc, [], (dest.take stc).length,
              WMode.direct, (dest.take stc).length, (dest.take stc).length⟩ t
            (by simp) (by simp; omega)
          exact ⟨g1, fun _ => ⟨g2, g4.trans (by simp [content])⟩⟩
      · rw [if_neg (by simp)]
        obtain ⟨hstl, hsp⟩ := h3
        simp only [syncSecondaryBuffer]
        obtain ⟨g1, g2, g3, g4, g5⟩ := makeSecondary_spec
          ⟨true, mx, cap, dest, sec.take (sec.length - (stl - stc)), sp + stc,
            WMode.detached, 0, 0⟩ t
          (by simp; omega) (h2)
        exact ⟨g1, fun _ => ⟨g2, g4.trans (by simp [content])⟩⟩
      · rw [if_neg (by simp)]
        obtain ⟨hstl, hsp⟩ := h3
        simp only [syncSecondaryBuffer]
        obtain ⟨g1, g2, g3, g4, g5⟩ := makeSecondary_spec
          ⟨true, mx, cap, dest, sec.take (sec.length - (stl - stc)), sp + stc,
            WMode.detached, 0, 0⟩ t
          (by simp; omega) (h2)
        exact ⟨g1, fun _ => ⟨g2, g4.trans (by simp [content])⟩⟩

/-- `WriteSlow` preserves well-formedness; on success the writer stays
healthy and the logical content gains exactly `src`. -/
theorem writeSlow_spec {s : WS} (src : List Nat) (t : Nat) (hg : goodState s) :
    goodState (writeSlow s src t).1 ∧
    ((writeSlow s src t).2 = true → (writeSlow s src t).1.healthy = true ∧
      content (writeSlow s src t).1 = content s ++ src) := by
  obtain ⟨hy, mx, cap, dest, sec, sp, mode, stl, stc⟩ := s
  obtain ⟨h1, h2, h3⟩ := hg
  dsimp only at h1 h2 h3
  cases hy
  · simp only [writeSlow, Bool.not_false, if_true]
    exact ⟨⟨h1, h2, h3⟩, by simp⟩
  · simp only [writeSlow, Bool.not_true, Bool.false_eq_true, if_false, WS.pos]
    by_cases hov : src.length > mx - (sp + stc)
    · rw [if_pos hov]
      exact ⟨⟨h1, h2, h3⟩, by simp [failOverflow]⟩
    · rw [if_neg hov]
      cases mode
      · obtain ⟨ha, hstl, hsec⟩ := h3
        subst hsec
        rw [if_pos rfl]
        simp only [syncDestBuffer]
        have hdl : (dest.take stc).length = stc := by
          simp
          omega
        by_cases hfit : src.length ≤ cap - (dest.take stc).length
        · rw [if_pos hfit]
          rw [hdl] at hfit
          simp only [makeDestBuffer, goodState, content]
          refine ⟨⟨by simp; omega, by simp; omega, ha, by simp; omega, trivial⟩,
            fun _ => ⟨trivial, List.take_left _ _⟩⟩
        · rw [if_neg hfit]
          obtain ⟨g1, g2, g3, g4, g5⟩ := makeSecondary_spec
            ⟨true, mx, cap, dest.take stc, [] ++ src,
              (dest.take stc).length + src.length, WMode.direct,
              (dest.take stc).length, (dest.take stc).length⟩ t
            (by simp) (by simp; omega)
          exact ⟨g1, fun _ => ⟨g2, g4.trans (by simp [content])⟩⟩
      · rw [if_neg (by simp)]
        obtain ⟨hstl, hsp⟩ := h3
        simp only [syncSecondaryBuffer]
        obtain ⟨g1, g2, g3, g4, g5⟩ := makeSecondary_spec
          ⟨true, mx, cap, dest, sec.take (sec.length - (stl - stc)) ++ src,
            sp + stc + src.length, WMode.detached, 0, 0⟩ t
          (by simp; omega) (h2)
        exact ⟨g1, fun _ => ⟨g2, g4.trans (by simp [content])⟩⟩
      · rw [if_neg (by simp)]
        obtain ⟨hstl, hsp⟩ := h3
        simp only [syncSecondaryBuffer]
        obtain ⟨g1, g2, g3, g4, g5⟩ := makeSecondary_spec
          ⟨true, mx, cap, dest, sec.take (sec.length - (stl - stc)) ++ src,
            sp + stc + src.length, WMode.detached, 0, 0⟩ t
          (by simp; omega) (h2)
        exact ⟨g1, fun _ => ⟨g2, g4.trans (by simp [content])⟩⟩

/-- `WriteZerosSlow(n)` behaves exactly like `WriteSlow` of `n` zero
bytes. -/
theorem writeZerosSlow_eq (s : WS) (n t : Nat) :
    writeZerosSlow s n t = writeSlow s (List.replicate n 0) t := by
  simp only [writeZerosSlow, writeSlow, List.length_replicate]

theorem take_append_ge (l₁ l₂ : List Nat) (n : Nat) (h : l₁.length ≤ n) :
    (l₁ ++ l₂).take n = l₁ ++ l₂.take (n - l₁.length) := by
  rw [List.take_append_eq_append_take, List.take_of_length_le h]

theorem take_append_le (l₁ l₂ : List Nat) (n : Nat) (h : n ≤ l₁.length) :
    (l₁ ++ l₂).take n = l₁.take n := by
  rw [List.take_append_eq_append_take, Nat.sub_eq_zero_of_le h]
  simp

/-- A successful `FlushImpl` yields exactly the canonical flushed state: the
whole logical content resident in the destination, empty overflow,
`start_pos` 0, and a fully-consumed direct window. -/
theorem flushImpl_spec {s : WS} (hg : goodState s) (hh : s.healthy = true) :
    flushImpl s = (⟨true, s.maxSize, max s.destCap (content s).length,
      content s, [], 0, WMode.direct, (content s).length,
      (content s).length⟩, true) := by
  obtain ⟨hy, mx, cap, dest, sec, sp, mode, stl, stc⟩ := s
  obtain ⟨h1, h2, h3⟩ := hg
  dsimp only at h1 h2 h3 hh
  subst hh
  cases mode
  · obtain ⟨ha, hstl, hsec⟩ := h3
    subst ha hsec
    simp only [flushImpl, Bool.not_true, Bool.false_eq_true, if_false, if_true]
    simp [syncDestBuffer, content, Prod.mk.injEq, WS.mk.injEq]
    omega
  · obtain ⟨hstl, hsp⟩ := h3
    simp only [flushImpl, Bool.not_true, Bool.false_eq_true, if_false]
    simp [syncSecondaryBuffer, content, Prod.mk.injEq, WS.mk.injEq]
  · obtain ⟨hstl, hsp⟩ := h3
    simp only [flushImpl, Bool.not_true, Bool.false_eq_true, if_false]
    simp [syncSecondaryBuffer, content, Prod.mk.injEq, WS.mk.injEq]

/-- An unhealthy writer's `FlushImpl` fails without any state change. -/
theorem flushImpl_unhealthy {s : WS} (hh : s.healthy = false) :
    flushImpl s = (s, false) := by
  rw [flushImpl, hh]
  simp

/-- `FlushImpl` preserves well-formedness. -/
theorem flushImpl_good {s : WS} (hg : goodState s) :
    goodState (flushImpl s).1 := by
  cases hs : s.healthy
  · rw [flushImpl_unhealthy hs]
    exact hg
  · rw [flushImpl_spec hg hs]
    exact ⟨Nat.le_refl _, by simp, rfl, rfl, rfl⟩

/-- An unhealthy writer's `TruncateImpl` fails without any state change. -/
theorem truncateImpl_unhealthy {s : WS} (n : Nat) (hh : s.healthy = false) :
    truncateImpl s n = (s, false) := by
  rw [truncateImpl, hh]
  simp

/-- `TruncateImpl` past the current position fails without any state
change. -/
theorem truncateImpl_fail {s : WS} (n : Nat) (hn : s.pos < n) :
    truncateImpl s n = (s, false) := by
  cases hs : s.healthy
  · exact truncateImpl_unhealthy n hs
  · rw [truncateImpl, hs]
    simp only [Bool.not_true, Bool.false_eq_true, if_false]
    rw [if_pos hn]

/-- A successful `TruncateImpl`: position becomes `new_size`, the logical
content is cut to its first `new_size` bytes, and well-formedness is
preserved. -/
theorem truncateImpl_spec {s : WS} (n : Nat) (hg : goodState s)
    (hh : s.healthy = true) (hn : n ≤ s.pos) :
    (truncateImpl s n).2 = true ∧ (truncateImpl s n).1.healthy = true ∧
    (truncateImpl s n).1.pos = n ∧
    content (truncateImpl s n).1 = (content s).take n ∧
    goodState (truncateImpl s n).1 := by
  obtain ⟨hy, mx, cap, dest, sec, sp, mode, stl, stc⟩ := s
  obtain ⟨h1, h2, h3⟩ := hg
  dsimp only [WS.pos] at h1 h2 h3 hh hn
  subst hh
  simp only [truncateImpl, Bool.not_true, Bool.false_eq_true, if_false, WS.pos]
  rw [if_neg (by omega)]
  cases mode
  · obtain ⟨ha, hstl, hsec⟩ := h3
    subst ha hsec
    rw [if_pos rfl]
    dsimp only [goodState]
    refine ⟨rfl, rfl, by omega, ?_, ⟨by omega, h2, rfl, hstl, rfl⟩⟩
    simp only [content, List.take_take]
    rw [Nat.min_eq_left (by omega)]
  · obtain ⟨hstl, hsp⟩ := h3
    rw [if_neg (by simp)]
    by_cases hlt : n < dest.length
    · rw [if_pos hlt]
      dsimp only [goodState]
      refine ⟨rfl, rfl, by omega, ?_, ⟨by omega, h2, rfl, rfl, rfl⟩⟩
      simp only [content]
      rw [take_append_le _ _ _ (by omega)]
    · rw [if_neg hlt]
      dsimp only [goodState]
      refine ⟨rfl, rfl, by omega, ?_, ⟨by omega, h2, rfl, by simp; omega⟩⟩
      simp only [content, Nat.sub_zero, List.take_length]
      rw [take_append_ge _ _ _ (by omega), List.take_take]
      have harith : sec.length - (dest.length + sec.length - n)
          = min (n - dest.length) (sec.length - (stl - stc)) := by omega
      rw [harith]
  · obtain ⟨hstl, hsp⟩ := h3
    rw [if_neg (by simp)]
    by_cases hlt : n < dest.length
    · rw [if_pos hlt]
      dsimp only [goodState]
      refine ⟨rfl, rfl, by omega, ?_, ⟨by omega, h2, rfl, rfl, rfl⟩⟩
      simp only [content]
      rw [take_append_le _ _ _ (by omega)]
    · rw [if_neg hlt]
      dsimp only [goodState]
      refine ⟨rfl, rfl, by omega, ?_, ⟨by omega, h2, rfl, by simp; omega⟩⟩
      simp only [content, Nat.sub_zero, List.take_length]
      rw [take_append_ge _ _ _ (by omega), List.take_take]
      have harith : sec.length - (dest.length + sec.length - n)
          = min (n - dest.length) (sec.length - (stl - stc)) := by omega
      rw [harith]

/-- `TruncateImpl` preserves well-formedness. -/
theorem truncateImpl_good {s : WS} (n : Nat) (hg : goodState s) :
    goodState (truncateImpl s n).1 := by
  cases hs : s.healthy
  · rw [truncateImpl_unhealthy n hs]
    exact hg
  · rcases Nat.lt_or_ge s.pos n with hlt | hge
    · rw [truncateImpl_fail n hlt]
      exact hg
    · exact (truncateImpl_spec n hg hs hge).2.2.2.2

/-- One successful append operation extends the logical content by exactly
its bytes and keeps the state well-formed and healthy. -/
theorem astep_spec {s : WS} (op : AOp) (hg : goodState s)
    (hok : aok s op = true) :
    goodState (astep s op) ∧ (astep s op).healthy = true ∧
    content (astep s op) = content s ++ aBytes op := by
  cases op with
  | pushFill m r t bytes =>
    simp only [aok, Bool.and_eq_true, decide_eq_true_eq] at hok
    obtain ⟨⟨hsucc, hmt⟩, hav⟩ := hok
    obtain ⟨pg, ps⟩ := pushSlow_spec m r t hg
    obtain ⟨ph, pc⟩ := ps hsucc
    have hb : (pushSlow s m r t).1.stc + bytes.length
        ≤ (pushSlow s m r t).1.stl := by
      have h1 := pg.1
      rw [WS.avail] at hav
      omega
    obtain ⟨fg, fh, fc, fp⟩ := fill_spec bytes pg hb
    refine ⟨fg, ?_, ?_⟩
    · simp only [astep]
      rw [fh, ph]
    · simp only [astep, aBytes]
      rw [fc, pc]
  | write src t =>
    simp only [aok] at hok
    obtain ⟨wg, ws⟩ := writeSlow_spec src t hg
    obtain ⟨wh, wc⟩ := ws hok
    exact ⟨wg, wh, wc⟩
  | zeros n t =>
    simp only [aok, writeZerosSlow_eq] at hok
    obtain ⟨wg, ws⟩ := writeSlow_spec (List.replicate n 0) t hg
    obtain ⟨wh, wc⟩ := ws hok
    refine ⟨?_, ?_, ?_⟩ <;> simp only [astep, aBytes, writeZerosSlow_eq]
    · exact wg
    · exact wh
    · exact wc

/-- Running a successful sequence of append operations keeps the state
well-formed and healthy and appends exactly the operations' bytes to the
logical content. -/
theorem runOps_spec (ops : List AOp) : ∀ s : WS, goodState s →
    s.healthy = true → opsOk s ops = true →
    goodState (runOps s ops) ∧ (runOps s ops).healthy = true ∧
    content (runOps s ops) = content s ++ opsBytes ops := by
  induction ops with
  | nil =>
    intro s hg hh _
    exact ⟨hg, hh, by simp [runOps, opsBytes]⟩
  | cons op ops ih =>
    intro s hg hh hok
    simp only [opsOk, Bool.and_eq_true] at hok
    obtain ⟨hok1, hok2⟩ := hok
    obtain ⟨ag, ah, ac⟩ := astep_spec op hg hok1
    obtain ⟨rg, rh, rc⟩ := ih (astep s op) ag ah hok2
    refine ⟨rg, rh, ?_⟩
    simp only [runOps, opsBytes]
    rw [rc, ac, List.append_assoc]

/-- Outside direct mode, `PushSlow` never touches the destination. -/
theorem pushSlow_dest {s : WS} (m r t : Nat) (hm : s.mode ≠ WMode.direct) :
    (pushSlow s m r t).1.dest = s.dest := by
  obtain ⟨hy, mx, cap, dest, sec, sp, mode, stl, stc⟩ := s
  dsimp only at hm
  cases hy
  · simp [pushSlow]
  · simp only [pushSlow, Bool.not_true, Bool.false_eq_true, if_false, WS.pos]
    by_cases hov : m > mx - (sp + stc)
    · rw [if_pos hov]
      rfl
    · rw [if_neg hov, if_neg hm]
      rfl

/-- Outside direct mode, `WriteSlow` never touches the destination. -/
theorem writeSlow_dest {s : WS} (src : List Nat) (t : Nat)
    (hm : s.mode ≠ WMode.direct) : (writeSlow s src t).1.dest = s.dest := by
  obtain ⟨hy, mx, cap, dest, sec, sp, mode, stl, stc⟩ := s
  dsimp only at hm
  cases hy
  · simp [writeSlow]
  · simp only [writeSlow, Bool.not_true, Bool.false_eq_true, if_false, WS.pos]
    by_cases hov : src.length > mx - (sp + stc)
    · rw [if_pos hov]
      rfl
    · rw [if_neg hov, if_neg hm]
      rfl

/-- `TruncateImpl` never touches the destination bytes. -/
theorem truncateImpl_dest (s : WS) (n : Nat) :
    (truncateImpl s n).1.dest = s.dest := by
  obtain ⟨hy, mx, cap, dest, sec, sp, mode, stl, stc⟩ := s
  cases hy
  · simp [truncateImpl]
  · simp only [truncateImpl, Bool.not_true, Bool.false_eq_true, if_false, WS.pos]
    by_cases hn : n > sp + stc
    · rw [if_pos hn]
    · rw [if_neg hn]
      cases mode
      · rw [if_pos rfl]
      · rw [if_neg (by simp)]
        by_cases hlt : n < dest.length
        · rw [if_pos hlt]
        · rw [if_neg hlt]
      · rw [if_neg (by simp)]
        by_cases hlt : n < dest.length
        · rw [if_pos hlt]
        · rw [if_neg hlt]

/-! ## Claim theorems: writer -/

/-- C1: starting from an empty destination, any successful mix of append
operations (PushSlow-then-fill, WriteSlow of a Chain or Cord, WriteZerosSlow)
writing bytes `b`, followed by a successful flush, leaves the destination
containing exactly `b` in order with size `len b`. -/
theorem c1_round_trip (maxS cap : Nat) (ops : List AOp)
    (hok : opsOk (initWriter maxS cap) ops = true) :
    (flushImpl (runOps (initWriter maxS cap) ops)).2 = true ∧
    (flushImpl (runOps (initWriter maxS cap) ops)).1.dest = opsBytes ops ∧
    (flushImpl (runOps (initWriter maxS cap) ops)).1.dest.length
      = (opsBytes ops).length := by
  have hg0 : goodState (initWriter maxS cap) := by
    simp [initWriter, goodState]
  obtain ⟨rg, rh, rc⟩ := runOps_spec ops (initWriter maxS cap) hg0 rfl hok
  have hdest : (flushImpl (runOps (initWriter maxS cap) ops)).1.dest
      = opsBytes ops := by
    rw [flushImpl_spec rg rh]
    dsimp only
    rw [rc]
    simp [initWriter, content]
  refine ⟨?_, hdest, by rw [hdest]⟩
  rw [flushImpl_spec rg rh]

/-- Witness for C1: push-and-fill 3 bytes into a capacity-4 destination,
write 3 more through the overflow path, write 2 zeros, flush. -/
theorem c1_round_trip_witness :
    opsOk (initWriter 1000 4)
      [AOp.pushFill 3 0 3 [1, 2, 3], AOp.write [4, 5, 6] 2, AOp.zeros 2 0]
      = true ∧
    ((flushImpl (runOps (initWriter 1000 4)
        [AOp.pushFill 3 0 3 [1, 2, 3], AOp.write [4, 5, 6] 2,
          AOp.zeros 2 0])).2 = true ∧
      (flushImpl (runOps (initWriter 1000 4)
        [AOp.pushFill 3 0 3 [1, 2, 3], AOp.write [4, 5, 6] 2,
          AOp.zeros 2 0])).1.dest
        = opsBytes [AOp.pushFill 3 0 3 [1, 2, 3], AOp.write [4, 5, 6] 2,
            AOp.zeros 2 0] ∧
      (flushImpl (runOps (initWriter 1000 4)
        [AOp.pushFill 3 0 3 [1, 2, 3], AOp.write [4, 5, 6] 2,
          AOp.zeros 2 0])).1.dest.length
        = (opsBytes [AOp.pushFill 3 0 3 [1, 2, 3], AOp.write [4, 5, 6] 2,
            AOp.zeros 2 0]).length) :=
  ⟨by decide, c1_round_trip 1000 4
    [AOp.pushFill 3 0 3 [1, 2, 3], AOp.write [4, 5, 6] 2, AOp.zeros 2 0]
    (by decide)⟩

/-- C2: from any reachable (well-formed) state, every public operation
re-establishes well-formedness, and in particular the checked invariant
`limit_pos == destination.size() + secondary_buffer.size()` holds on exit. -/
theorem c2_position_invariant (s : WS) (op : POp) (hg : goodState s) :
    goodState (pstep s op).1 ∧ posInvariant (pstep s op).1 := by
  have hgood : goodState (pstep s op).1 := by
    cases op with
    | push m r t => exact (pushSlow_spec m r t hg).1
    | write src t => exact (writeSlow_spec src t hg).1
    | zeros n t =>
      have he : pstep s (POp.zeros n t) = writeZerosSlow s n t := rfl
      rw [he, writeZerosSlow_eq]
      exact (writeSlow_spec (List.replicate n 0) t hg).1
    | flush => exact flushImpl_good hg
    | truncate n => exact truncateImpl_good n hg
  exact ⟨hgood, goodState_posInvariant hgood⟩

/-- Witness for C2: a secondary-mode state under a write operation. -/
theorem c2_position_invariant_witness :
    goodState ⟨true, 100, 4, [1, 2, 3, 4], [5, 6, 0], 5,
      WMode.secondary, 2, 1⟩ ∧
    (goodState (pstep ⟨true, 100, 4, [1, 2, 3, 4], [5, 6, 0], 5,
        WMode.secondary, 2, 1⟩ (POp.write [9, 9] 3)).1 ∧
      posInvariant (pstep ⟨true, 100, 4, [1, 2, 3, 4], [5, 6, 0], 5,
        WMode.secondary, 2, 1⟩ (POp.write [9, 9] 3)).1) :=
  ⟨by decide, c2_position_invariant _ _ (by decide)⟩

/-- C3: a healthy secondary-mode flush trims the unused window tail, moves
all committed overflow bytes into the destination after the resident prefix,
empties the overflow, resets `start_pos` to 0, re-establishes a direct window
over the complete destination, and preserves the logical content; moreover no
operation other than flush ever moves overflow bytes into the destination
(any non-flush operation either leaves the destination bytes unchanged or
runs with an empty overflow). -/
theorem c3_flush_merges_overflow :
    (∀ s : WS, goodState s → s.healthy = true → s.mode = WMode.secondary →
      (flushImpl s).2 = true ∧
      (flushImpl s).1.dest
        = s.dest ++ s.secondary.take (s.secondary.length - (s.stl - s.stc)) ∧
      (flushImpl s).1.secondary = [] ∧ (flushImpl s).1.startPos = 0 ∧
      (flushImpl s).1.mode = WMode.direct ∧
      (flushImpl s).1.stl = (flushImpl s).1.dest.length ∧
      (flushImpl s).1.stc = (flushImpl s).1.dest.length ∧
      content (flushImpl s).1 = content s) ∧
    (∀ (s : WS) (op : POp), goodState s → op ≠ POp.flush →
      (pstep s op).1.dest = s.dest ∨ s.secondary = []) := by
  constructor
  · intro s hg hh hm
    rw [flushImpl_spec hg hh]
    dsimp only
    refine ⟨rfl, ?_, rfl, rfl, rfl, rfl, rfl, ?_⟩
    · simp [content, hm]
    · simp [content]
  · intro s op hg hne
    cases op with
    | push m r t =>
      by_cases hmd : s.mode = WMode.direct
      · obtain ⟨_, _, h3⟩ := hg
        rw [hmd] at h3
        exact Or.inr h3.2.2
      · exact Or.inl (pushSlow_dest m r t hmd)
    | write src t =>
      by_cases hmd : s.mode = WMode.direct
      · obtain ⟨_, _, h3⟩ := hg
        rw [hmd] at h3
        exact Or.inr h3.2.2
      · exact Or.inl (writeSlow_dest src t hmd)
    | zeros n t =>
      by_cases hmd : s.mode = WMode.direct
      · obtain ⟨_, _, h3⟩ := hg
        rw [hmd] at h3
        exact Or.inr h3.2.2
      · have he : (pstep s (POp.zeros n t)).1 = (writeZerosSlow s n t).1 := rfl
        rw [he, writeZerosSlow_eq]
        exact Or.inl (writeSlow_dest (List.replicate n 0) t hmd)
    | flush => exact absurd rfl hne
    | truncate n => exact Or.inl (truncateImpl_dest s n)

/-- Witness for C3 at a concrete secondary-mode state and a non-flush
operation. -/
theorem c3_flush_merges_overflow_witness :
    ((flushImpl ⟨true, 100, 4, [1, 2, 3, 4], [5, 6, 0], 5,
        WMode.secondary, 2, 1⟩).2 = true ∧
      (flushImpl ⟨true, 100, 4, [1, 2, 3, 4], [5, 6, 0], 5,
        WMode.secondary, 2, 1⟩).1.dest = [1, 2, 3, 4] ++
          List.take (List.length [5, 6, 0] - (2 - 1)) [5, 6, 0] ∧
      (flushImpl ⟨true, 100, 4, [1, 2, 3, 4], [5, 6, 0], 5,
        WMode.secondary, 2, 1⟩).1.secondary = [] ∧
      (flushImpl ⟨true, 100, 4, [1, 2, 3, 4], [5, 6, 0], 5,
        WMode.secondary, 2, 1⟩).1.startPos = 0 ∧
      (flushImpl ⟨true, 100, 4, [1, 2, 3, 4], [5, 6, 0], 5,
        WMode.secondary, 2, 1⟩).1.mode = WMode.direct ∧
      (flushImpl ⟨true, 100, 4, [1, 2, 3, 4], [5, 6, 0], 5,
        WMode.secondary, 2, 1⟩).1.stl =
        (flushImpl ⟨true, 100, 4, [1, 2, 3, 4], [5, 6, 0], 5,
          WMode.secondary, 2, 1⟩).1.dest.length ∧
      (flushImpl ⟨true, 100, 4, [1, 2, 3, 4], [5, 6, 0], 5,
        WMode.secondary, 2, 1⟩).1.stc =
        (flushImpl ⟨true, 100, 4, [1, 2, 3, 4], [5, 6, 0], 5,
          WMode.secondary, 2, 1⟩).1.dest.length ∧
      content (flushImpl ⟨true, 100, 4, [1, 2, 3, 4], [5, 6, 0], 5,
        WMode.secondary, 2, 1⟩).1 =
        content ⟨true, 100, 4, [1, 2, 3, 4], [5, 6, 0], 5,
          WMode.secondary, 2, 1⟩) ∧
    ((pstep ⟨true, 100, 4, [1, 2, 3, 4], [5, 6, 0], 5,
        WMode.secondary, 2, 1⟩ (POp.truncate 5)).1.dest = [1, 2, 3, 4] ∨
      ([5, 6, 0] : List Nat) = []) :=
  ⟨c3_flush_merges_overflow.1 _ (by decide) rfl rfl,
   c3_flush_merges_overflow.2 _ (POp.truncate 5) (by decide) (by decide)⟩

/-- C4: flushing twice in a row is idempotent: the second flush succeeds and
returns a state identical to the first flush's result. -/
theorem c4_flush_idempotent (s : WS) (hg : goodState s)
    (hh : s.healthy = true) :
    flushImpl (flushImpl s).1 = ((flushImpl s).1, true) := by
  rw [flushImpl_spec hg hh]
  dsimp only
  have hg2 : goodState ⟨true, s.maxSize, max s.destCap (content s).length,
      content s, [], 0, WMode.direct, (content s).length,
      (content s).length⟩ :=
    ⟨Nat.le_refl _, by simp, rfl, rfl, rfl⟩
  rw [flushImpl_spec hg2 rfl]
  simp [content, Prod.mk.injEq, WS.mk.injEq]

/-- Witness for C4 at a concrete secondary-mode state. -/
theorem c4_flush_idempotent_witness :
    flushImpl (flushImpl ⟨true, 100, 4, [1, 2, 3, 4], [5, 6, 0], 5,
        WMode.secondary, 2, 1⟩).1
      = ((flushImpl ⟨true, 100, 4, [1, 2, 3, 4], [5, 6, 0], 5,
          WMode.secondary, 2, 1⟩).1, true) :=
  c4_flush_idempotent _ (by decide) rfl

/-- C7: an append request of `n` bytes with `n` exceeding
`dest.max_size() - pos()` fails with the overflow condition — only the health
flag changes, the destination is untouched; and once the writer is unhealthy
every public operation fails immediately with no state change. -/
theorem c7_overflow_and_terminal_failure :
    (∀ (s : WS) (op : POp) (n : Nat), reqSize op = some n →
      s.healthy = true → s.maxSize - s.pos < n →
      pstep s op = ({ s with healthy := false }, false)) ∧
    (∀ (s : WS) (op : POp), s.healthy = false → pstep s op = (s, false)) := by
  constructor
  · intro s op n hreq hh hov
    cases op with
    | push m r t =>
      simp only [reqSize, Option.some.injEq] at hreq
      subst hreq
      simp only [pstep, pushSlow, hh, Bool.not_true, Bool.false_eq_true,
        if_false]
      rw [if_pos hov]
      rfl
    | write src t =>
      simp only [reqSize, Option.some.injEq] at hreq
      subst hreq
      simp only [pstep, writeSlow, hh, Bool.not_true, Bool.false_eq_true,
        if_false]
      rw [if_pos hov]
      rfl
    | zeros m t =>
      simp only [reqSize, Option.some.injEq] at hreq
      subst hreq
      simp only [pstep, writeZerosSlow, hh, Bool.not_true, Bool.false_eq_true,
        if_false]
      rw [if_pos hov]
      rfl
    | flush => exact absurd hreq (by simp [reqSize])
    | truncate m => exact absurd hreq (by simp [reqSize])
  · intro s op hh
    cases op <;>
      simp [pstep, pushSlow, writeSlow, writeZerosSlow, flushImpl,
        truncateImpl, hh]

/-- Witness for C7: a 200-byte write into a writer with `max_size` 100, and a
push on an unhealthy writer. -/
theorem c7_overflow_and_terminal_failure_witness :
    pstep ⟨true, 100, 4, [1, 2], [], 0, WMode.direct, 2, 2⟩
        (POp.zeros 200 0)
      = (⟨false, 100, 4, [1, 2], [], 0, WMode.direct, 2, 2⟩, false) ∧
    pstep ⟨false, 100, 4, [1, 2], [], 0, WMode.direct, 2, 2⟩
        (POp.push 1 1 1)
      = (⟨false, 100, 4, [1, 2], [], 0, WMode.direct, 2, 2⟩, false) :=
  ⟨c7_overflow_and_terminal_failure.1 _ (POp.zeros 200 0) 200 rfl rfl
     (by decide),
   c7_overflow_and_terminal_failure.2 _ (POp.push 1 1 1) rfl⟩

/-- C8: truncate fails exactly when `new_size` exceeds the current position
(leaving the state unchanged); on success the position becomes `new_size`,
the content becomes the first `new_size` bytes of the old content, and any
subsequent successful appends yield `old_content[0:new_size]` followed by the
new bytes, whether `new_size` fell in the direct or the overflow region. -/
theorem c8_truncate_then_append (s : WS) (n : Nat) (hg : goodState s)
    (hh : s.healthy = true) :
    ((truncateImpl s n).2 = false ↔ s.pos < n) ∧
    (s.pos < n → truncateImpl s n = (s, false)) ∧
    (n ≤ s.pos →
      (truncateImpl s n).1.pos = n ∧
      content (truncateImpl s n).1 = (content s).take n ∧
      ∀ ops : List AOp, opsOk (truncateImpl s n).1 ops = true →
        content (runOps (truncateImpl s n).1 ops)
          = (content s).take n ++ opsBytes ops) := by
  refine ⟨⟨?_, ?_⟩, fun hlt => truncateImpl_fail n hlt, fun hle => ?_⟩
  · intro hfalse
    by_contra hcon
    have hle : n ≤ s.pos := by omega
    have := (truncateImpl_spec n hg hh hle).1
    rw [this] at hfalse
    cases hfalse
  · intro hlt
    rw [truncateImpl_fail n hlt]
  · obtain ⟨ht, hhy, hpos, hcont, hgood⟩ := truncateImpl_spec n hg hh hle
    refine ⟨hpos, hcont, fun ops hok => ?_⟩
    obtain ⟨rg, rh, rc⟩ := runOps_spec ops _ hgood hhy hok
    rw [rc, hcont]

/-- Witness for C8: truncating a secondary-mode writer of logical size 10 to
6 (inside the overflow region) and then writing 2 more bytes. -/
theorem c8_truncate_then_append_witness :
    goodState ⟨true, 100, 4, [1, 2, 3, 4], [5, 6, 7, 8, 9, 10, 0], 10,
      WMode.secondary, 1, 0⟩ ∧
    (((truncateImpl ⟨true, 100, 4, [1, 2, 3, 4], [5, 6, 7, 8, 9, 10, 0], 10,
        WMode.secondary, 1, 0⟩ 6).2 = false ↔
        WS.pos ⟨true, 100, 4, [1, 2, 3, 4], [5, 6, 7, 8, 9, 10, 0], 10,
          WMode.secondary, 1, 0⟩ < 6) ∧
      (WS.pos ⟨true, 100, 4, [1, 2, 3, 4], [5, 6, 7, 8, 9, 10, 0], 10,
          WMode.secondary, 1, 0⟩ < 6 →
        truncateImpl ⟨true, 100, 4, [1, 2, 3, 4], [5, 6, 7, 8, 9, 10, 0], 10,
          WMode.secondary, 1, 0⟩ 6
          = (⟨true, 100, 4, [1, 2, 3, 4], [5, 6, 7, 8, 9, 10, 0], 10,
              WMode.secondary, 1, 0⟩, false)) ∧
      (6 ≤ WS.pos ⟨true, 100, 4, [1, 2, 3, 4], [5, 6, 7, 8, 9, 10, 0], 10,
          WMode.secondary, 1, 0⟩ →
        (truncateImpl ⟨true, 100, 4, [1, 2, 3, 4], [5, 6, 7, 8, 9, 10, 0], 10,
          WMode.secondary, 1, 0⟩ 6).1.pos = 6 ∧
        content (truncateImpl ⟨true, 100, 4, [1, 2, 3, 4],
          [5, 6, 7, 8, 9, 10, 0], 10, WMode.secondary, 1, 0⟩ 6).1
          = (content ⟨true, 100, 4, [1, 2, 3, 4], [5, 6, 7, 8, 9, 10, 0], 10,
              WMode.secondary, 1, 0⟩).take 6 ∧
        ∀ ops : List AOp,
          opsOk (truncateImpl ⟨true, 100, 4, [1, 2, 3, 4],
            [5, 6, 7, 8, 9, 10, 0], 10, WMode.secondary, 1, 0⟩ 6).1 ops
            = true →
          content (runOps (truncateImpl ⟨true, 100, 4, [1, 2, 3, 4],
            [5, 6, 7, 8, 9, 10, 0], 10, WMode.secondary, 1, 0⟩ 6).1 ops)
            = (content ⟨true, 100, 4, [1, 2, 3, 4], [5, 6, 7, 8, 9, 10, 0],
                10, WMode.secondary, 1, 0⟩).take 6 ++ opsBytes ops)) :=
  ⟨by decide, c8_truncate_then_append _ 6 (by decide) rfl⟩

/-- C10: the size query returns the current position when healthy and
nothing when unhealthy, and never changes the writer state. -/
theorem c10_size_query (s : WS) :
    sizeImpl s = (s, if s.healthy = true then some s.pos else none) := by
  rw [sizeImpl]
  cases hs : s.healthy <;> simp

end Riegeli
